import Mathlib

/-!
A shallow embedding of the prismerge merge engine (src/js/src/data.ts,
src/js/src/connection.ts + the InsertManager, src/js/src/merge.ts) and
proofs about it.

Conventions of the embedding:
* TypeScript hand-rolled Option/Result sum types are mapped to Lean
  Option/Except.
* SQL statements are represented structurally (inductive SqlStmt) rather
  than as strings: the fields record exactly the data the source splices
  into the SQL text.  Values carried around are the semantic values (the
  source pre-quotes values with the SQLite quote() function; quoting is a
  bijection on values, so tracking semantic values is faithful).
* Database driver behaviour (row streaming, probe query answers, UUID
  minting, batch execution) is supplied through explicit inputs/oracles,
  mirroring the call sites in merge.ts one for one.
-/

namespace Prismerge

/-- data.ts: class Relation. -/
structure Relation where
  fields : List String
  references : List String
  deriving DecidableEq, Repr

/-- data.ts: class ColumnType. -/
structure ColumnType where
  name : String
  collection : Bool
  nullable : Bool
  deriving DecidableEq, Repr

/-- data.ts: class Column. -/
structure Column where
  name : String
  ty : ColumnType
  relation : Option Relation
  unique : Bool
  primary_key : Bool
  deriving DecidableEq, Repr

/-- data.ts: class Unique. -/
structure Unique where
  columnNames : List String
  deriving DecidableEq, Repr

/-- data.ts: class Model (name, columns, unique constraint).  The mapTable
and primaryKeyIndex members are computed from these fields in the
constructor; they are embedded below as functions. -/
structure Model where
  name : String
  columns : List Column
  unique : Option Unique
  deriving DecidableEq, Repr

/-- data.ts: Column.hasRelation. -/
def Column.hasRelation (c : Column) : Bool :=
  c.relation.isSome

/-- data.ts: Column.getRelatedColumn - the first column of the model whose
relation lists this column among its fields. -/
def Column.getRelatedColumn (c : Column) (model : Model) : Option Column :=
  model.columns.find? (fun col =>
    match col.relation with
    | some r => r.fields.contains c.name
    | none => false)

/-- data.ts: MapTable name, set in the constructor to modelName_id_map. -/
def Model.mapTableName (m : Model) : String :=
  m.name ++ "_id_map"

/-- data.ts: the Model constructor loop computing primaryKeyIndex (keeps
the index of the last column flagged primary_key). -/
def primaryKeyIndexLoop : List Column → Nat → Option Nat → Option Nat
  | [], _, acc => acc
  | c :: rest, i, acc =>
      primaryKeyIndexLoop rest (i + 1) (if c.primary_key then some i else acc)

/-- data.ts: Model.primaryKeyIndex. -/
def Model.primaryKeyIndex (m : Model) : Option Nat :=
  primaryKeyIndexLoop m.columns 0 none

/-- data.ts: Model.primaryKey getter. -/
def Model.primaryKey (m : Model) : Option Column :=
  m.primaryKeyIndex.bind (fun i => m.columns.get? i)

/-- data.ts: Model.getCol. -/
def Model.getCol (m : Model) (name : String) : Option Column :=
  m.columns.find? (fun col => col.name == name)

/-- data.ts: class Schema.  The JS Map from model name to Model is embedded
as an association list in insertion order (JS Map iteration order). -/
structure Schema where
  models : List (String × Model)
  deriving DecidableEq, Repr

/-- JS Map.get: lookup by key (first binding). -/
def Schema.getModel (s : Schema) (name : String) : Option Model :=
  (s.models.find? (fun p => p.1 == name)).map Prod.snd

/-- JS Map.has. -/
def Schema.hasModel (s : Schema) (name : String) : Bool :=
  (s.getModel name).isSome

/-- data.ts: Column.isRegular - not the primary key, not a collection, no
relation, and its type name is not a model of the schema. -/
def Column.isRegular (c : Column) (s : Schema) : Bool :=
  !c.primary_key && !c.ty.collection && !c.hasRelation && !(s.hasModel c.ty.name)

/-- data.ts: Model.verifyIntegrity runs
SELECT COUNT(*) FROM pragma_foreign_key_check(table) through
Connection.get.  This type records the three behaviours of the method:
returning Ok (no violations reported), returning Err count, or throwing
(the unwrap of a missing row). -/
inductive VerifyOutcome
  | ok
  | violations (n : Nat)
  | crash
  deriving DecidableEq, Repr

/-- data.ts: Model.verifyIntegrity, as a function of the driver answer to
the foreign-key-check COUNT query (Connection.get returns
Result of Option row, embedded as Except error (Option Nat)). -/
def verifyIntegrity (check : Except String (Option Nat)) : VerifyOutcome :=
  match check with
  | .error _ => .ok
  | .ok none => .crash
  | .ok (some count) => if count > 0 then .violations count else .ok

/-- merge.ts lines 118-124: the orchestrator prints the per-table warning
exactly when verifyIntegrity returned Err (an isErr result). -/
def warningPrinted (o : VerifyOutcome) : Bool :=
  match o with
  | .violations _ => true
  | _ => false

/-! ## SQL statements and the InsertManager (insert_manager.ts) -/

/-- One value position of the generated model INSERT: a regular column
(literal value copied from the source row) or a foreign-key column
(resolved through the target model id-map via LEFT JOIN on the old id
taken from the source row). -/
inductive InsertEntry
  | regular (colName value : String)
  | foreignKey (colName targetModel oldFk : String)
  deriving DecidableEq, Repr

/-- The two destination statement shapes the merge driver generates. -/
inductive SqlStmt
  | modelInsert (table : String) (newPk : String) (entries : List InsertEntry)
  | idMapInsert (mapTable : String) (oldId newId : String)
  deriving DecidableEq, Repr

/-- insert_manager.ts: class InsertManager (statements buffer, progress
count, flush threshold). -/
structure InsertManager where
  statements : List SqlStmt
  count : Nat
  threshold : Nat
  deriving DecidableEq, Repr

/-- insert_manager.ts: flush().  Returns (returned count, batch handed to
the driver, state after).  The source clears the buffer and zeroes the
count before awaiting the batch execution, so the post-state is cleared
unconditionally; the driver call itself is modelled by flushWith below. -/
def InsertManager.flush (im : InsertManager) :
    Nat × List SqlStmt × InsertManager :=
  (im.count, im.statements, { im with statements := [], count := 0 })

/-- insert_manager.ts: flush() together with the execOrError driver call,
which may fail.  Mirrors the statement order of the source: the buffer is
spliced out and the count zeroed, then the batch is executed. -/
def InsertManager.flushWith (im : InsertManager)
    (exec : List SqlStmt → Except String Unit) :
    Except String Nat × InsertManager :=
  let r := im.flush
  (match exec r.2.1 with
   | .ok _ => .ok r.1
   | .error e => .error e, r.2.2)

/-- insert_manager.ts: maybeFlush() - flush when the pending statement
count reached the threshold.  Middle component: the batch executed, if a
flush happened. -/
def InsertManager.maybeFlush (im : InsertManager) :
    Nat × Option (List SqlStmt) × InsertManager :=
  if im.statements.length ≥ im.threshold then
    let r := im.flush
    (r.1, some r.2.1, r.2.2)
  else
    (0, none, im)

/-- insert_manager.ts: insert() - push the statement, count it, maybe
flush. -/
def InsertManager.insert (im : InsertManager) (stmt : SqlStmt) :
    Nat × Option (List SqlStmt) × InsertManager :=
  InsertManager.maybeFlush
    { im with statements := im.statements ++ [stmt], count := im.count + 1 }

/-- insert_manager.ts: insertSupporting() - push the statement without
counting it, maybe flush. -/
def InsertManager.insertSupporting (im : InsertManager) (stmt : SqlStmt) :
    Nat × Option (List SqlStmt) × InsertManager :=
  InsertManager.maybeFlush
    { im with statements := im.statements ++ [stmt] }

/-- States of the InsertManager reachable from the freshly constructed
manager through its public operations. -/
inductive InsertManager.Reachable : InsertManager → Prop
  | init (t : Nat) : InsertManager.Reachable ⟨[], 0, t⟩
  | insert (im : InsertManager) (stmt : SqlStmt) :
      InsertManager.Reachable im →
      InsertManager.Reachable (im.insert stmt).2.2
  | insertSupporting (im : InsertManager) (stmt : SqlStmt) :
      InsertManager.Reachable im →
      InsertManager.Reachable (im.insertSupporting stmt).2.2
  | flush (im : InsertManager) :
      InsertManager.Reachable im →
      InsertManager.Reachable im.flush.2.2

/-! ## Per-model merge driver (merge.ts, mergeModel) -/

/-- One streamed source row, as delivered by the select query of
merge.ts: the raw primary key (selected AS unquotedPk) and the quoted
values of the other selected columns, indexed by column name (a JS object
lookup, hence a total function). -/
structure RowData where
  unquotedPk : String
  get : String → String

/-- Answer of the destination to the existence-check query
(Connection.get returns Result of Option row): a driver error, no row, or
a row carrying the quoted primary key of the already-inserted record. -/
inductive ProbeResult
  | errQ (msg : String)
  | empty
  | found (pk : String)
  deriving DecidableEq, Repr

/-- merge.ts lines 329-356: the existing primary key recorded by the
existence check.  It is some pk exactly when this source is a secondary,
the model has a unique constraint (checkSqlTemplate is Some exactly when
model.unique is Some, line 233), and the probe found a row; a probe driver
error or an empty answer leaves it None. -/
def matchedPk (model : Model) (isPrimary : Bool) (probe : ProbeResult) :
    Option String :=
  if !isPrimary && model.unique.isSome then
    match probe with
    | .found pk => some pk
    | _ => none
  else none

/-- The column/value substitutions performed on checkSqlTemplate
(merge.ts lines 341-347): for each unique-constraint column, the quoted
source value of that column. -/
def probeValues (model : Model) (row : RowData) : List (String × String) :=
  match model.unique with
  | some u => u.columnNames.map (fun n => (n, row.get n))
  | none => []

/-- An InsertManager call made for a row: insert() (counted towards merge
progress) or insertSupporting(). -/
inductive Emission
  | counting (stmt : SqlStmt)
  | supporting (stmt : SqlStmt)
  deriving DecidableEq, Repr

/-- Observable actions of merge.ts per-row callback: executing the
existence-check query against the destination, or handing a statement to
the InsertManager. -/
inductive RowEvent
  | probe (values : List (String × String))
  | emit (e : Emission)
  deriving DecidableEq, Repr

/-- merge.ts lines 386-408: the values of the generated model INSERT, one
entry per column of the model, in column order: columns with a related
column become foreign keys resolved through the target id-map (LEFT JOIN
on the old id read from the row), regular columns are copied literally,
all other columns are skipped. -/
def insertEntries (schema : Schema) (model : Model) (row : RowData) :
    List InsertEntry :=
  model.columns.filterMap (fun column =>
    match column.getRelatedColumn model with
    | some relatedColumn =>
        some (.foreignKey column.name relatedColumn.ty.name (row.get column.name))
    | none =>
        if column.isRegular schema then
          some (.regular column.name (row.get column.name))
        else none)

/-- merge.ts lines 317-429: the body of the per-row callback.  Inputs:
whether the current connection is the primary, the destination answer to
the probe (consulted only when the probe runs), the UUID the generator
would mint for this row, and the row itself.  Output: the ordered list of
observable actions. -/
def processRow (schema : Schema) (model : Model) (isPrimary : Bool)
    (probe : ProbeResult) (mint : String) (row : RowData) : List RowEvent :=
  let oldPk := row.unquotedPk
  let probeEvents : List RowEvent :=
    if !isPrimary && model.unique.isSome then [.probe (probeValues model row)]
    else []
  match matchedPk model isPrimary probe with
  | some existingId =>
      -- an existing row was found: only the map-table entry, via insert()
      probeEvents ++
        [.emit (.counting (.idMapInsert model.mapTableName oldPk existingId))]
  | none =>
      let newPk := if isPrimary then oldPk else mint
      probeEvents ++
        [.emit (.counting (.modelInsert model.name newPk (insertEntries schema model row))),
         .emit (.supporting (.idMapInsert model.mapTableName oldPk newPk))]

/-- merge.ts lines 276-292: the primary-selection loop.  Processes the
row counts of the model in each connection in input order; state is
(primary index, primary count, total rows), starting from
(connection 0, count 0, total 0); a connection strictly exceeding the
running primary count becomes the new primary. -/
def primaryLoop : List Nat → Nat → Nat × Nat × Nat → Nat × Nat × Nat
  | [], _, acc => acc
  | c :: rest, i, (pIdx, pCount, total) =>
      primaryLoop rest (i + 1)
        (if c > pCount then (i, c, total + c) else (pIdx, pCount, total + c))

/-- merge.ts lines 276-292 entry point: primary index, primary count and
progress total from the per-connection counts. -/
def selectPrimary (counts : List Nat) : Nat × Nat × Nat :=
  primaryLoop counts 0 (0, 0, 0)

/-- merge.ts lines 298-305: the iteration order over connections
(identified by their input index): the primary first, then every other
connection in original input order. -/
def sortedConnectionIdxs (n : Nat) (primIdx : Nat) : List Nat :=
  primIdx :: (List.range n).filter (fun i => i != primIdx)

/-! ### Driving the InsertManager over the row stream -/

/-- Accumulated state of one mergeModel run: the InsertManager, the next
index into the UUID supply, the batches executed against the destination
by each flush (in order, possibly empty), the progress returned by each
flush, and the total progress reported (the sum of all inc() arguments,
of which the non-flush calls contribute 0). -/
structure RunState where
  im : InsertManager
  mintIdx : Nat
  batches : List (List SqlStmt)
  flushRets : List Nat
  progress : Nat
  deriving DecidableEq, Repr

/-- Fold one InsertManager call result (returned progress, optional
executed batch, next manager state) into the run state;
progress.inc(result) is the progress addition. -/
def recordOp (st : RunState) (r : Nat × Option (List SqlStmt) × InsertManager) :
    RunState :=
  { st with
    im := r.2.2
    batches := st.batches ++ r.2.1.toList
    flushRets := st.flushRets ++ (r.2.1.map (fun _ => r.1)).toList
    progress := st.progress + r.1 }

/-- Perform one row event against the run state (probe queries do not
touch the batcher). -/
def applyEvent (st : RunState) (ev : RowEvent) : RunState :=
  match ev with
  | .probe _ => st
  | .emit (.counting stmt) => recordOp st (st.im.insert stmt)
  | .emit (.supporting stmt) => recordOp st (st.im.insertSupporting stmt)

/-- Whether processing this row consumes a freshly minted UUID
(crypto.randomUUID() is called only on the insert branch of a secondary
row, merge.ts line 375). -/
def mintedOnRow (model : Model) (isPrimary : Bool) (probe : ProbeResult) :
    Bool :=
  !isPrimary && (matchedPk model isPrimary probe).isNone

/-- merge.ts lines 317-429: handle one streamed row result.  A driver
error on the row returns from the callback at once (line 318-320): the
row is skipped and nothing else happens.  An Ok row is processed and its
events driven through the InsertManager. -/
def runRow (schema : Schema) (model : Model) (isPrimary : Bool)
    (mint : Nat → String) (st : RunState)
    (r : Except String (RowData × ProbeResult)) : RunState :=
  match r with
  | .error _ => st
  | .ok (row, probe) =>
      let st2 :=
        (processRow schema model isPrimary probe (mint st.mintIdx) row).foldl
          applyEvent st
      { st2 with
        mintIdx :=
          if mintedOnRow model isPrimary probe then st2.mintIdx + 1
          else st2.mintIdx }

/-- An unconditional flush (merge.ts lines 432 and 435): the batch is
executed even when empty. -/
def recordFlush (st : RunState) : RunState :=
  let r := st.im.flush
  { st with
    im := r.2.2
    batches := st.batches ++ [r.2.1]
    flushRets := st.flushRets ++ [r.1]
    progress := st.progress + r.1 }

/-- merge.ts lines 312-433: process one connection of sortedConnections -
stream its rows, then flush any lingering records. -/
def runSource (schema : Schema) (model : Model) (isPrimary : Bool)
    (mint : Nat → String)
    (rows : List (Except String (RowData × ProbeResult)))
    (st : RunState) : RunState :=
  recordFlush (rows.foldl (runRow schema model isPrimary mint) st)

/-- merge.ts mergeModel phase C and D: iterate the sources in sorted
order (each tagged with whether it is the primary), then the final
flush.  The identity-map DDL (createInto before, createIndices after) is
not an InsertManager operation and is outside this state. -/
def mergeModelRun (schema : Schema) (model : Model) (mint : Nat → String)
    (sources : List (Bool × List (Except String (RowData × ProbeResult))))
    (threshold : Nat) : RunState :=
  recordFlush
    (sources.foldl
      (fun st src => runSource schema model src.1 mint src.2 st)
      ⟨⟨[], 0, threshold⟩, 0, [], [], 0⟩)

/-! ### Observation helpers over event lists -/

/-- The id-map rows inserted by a list of row events:
(map table, old_id, new_id), whether emitted through insert() or
insertSupporting(). -/
def idMapEntriesOf (evs : List RowEvent) : List (String × String × String) :=
  evs.filterMap (fun ev =>
    match ev with
    | .emit (.counting (.idMapInsert t o n)) => some (t, o, n)
    | .emit (.supporting (.idMapInsert t o n)) => some (t, o, n)
    | _ => none)

/-- The model-table inserts of a list of row events: (table, new primary
key). -/
def modelInsertsOf (evs : List RowEvent) : List (String × String) :=
  evs.filterMap (fun ev =>
    match ev with
    | .emit (.counting (.modelInsert t pk _)) => some (t, pk)
    | .emit (.supporting (.modelInsert t pk _)) => some (t, pk)
    | _ => none)

/-- The existence-check executions of a list of row events. -/
def probesOf (evs : List RowEvent) : List (List (String × String)) :=
  evs.filterMap (fun ev =>
    match ev with
    | .probe vs => some vs
    | _ => none)

/-- The emissions (InsertManager calls) of a list of row events. -/
def emissionsOf (evs : List RowEvent) : List Emission :=
  evs.filterMap (fun ev =>
    match ev with
    | .emit e => some e
    | _ => none)

/-! ## Topological scheduler (data.ts, Schema.sortedModels)

Schema.sortedModels builds the relation edge list and calls the
marcelklehr/toposort npm package (toposort.array), then reverses the
result.  The package performs a depth-first search: nodes are taken from
the last input node to the first, each unvisited node is marked visited,
its outgoing neighbours are visited (from the last inserted to the
first), and the node is then placed in front of all previously finished
nodes; a node met again while on the current DFS stack raises a cycle
error (embedded as none), as does an edge endpoint that is not a known
node.  The embedding below reproduces that algorithm with an explicit
fuel (sufficient fuel is proved below under acyclicity); the adjacency
list keeps duplicate edges, which the package's Set would drop - a
visited-check no-op either way. -/

/-- Outgoing neighbours of a node, from the edge list. -/
def adjOf (edges : List (String × String)) (a : String) : List String :=
  (edges.filter (fun e => e.1 == a)).map Prod.snd

/-- The DFS state: visited marks (set on entry) and the finished nodes,
most recently finished first. -/
structure DfsState where
  visited : List String
  sorted : List String
  deriving DecidableEq, Repr

/-- The toposort DFS over a worklist.  For each worklist node: on the
current stack - cycle (none); already visited - skip; otherwise mark
visited, recurse into its neighbours (reversed, as the package iterates
from the end) with the node pushed on the stack, then prepend the node to
the finished list.  Fuel bounds the recursion depth. -/
def visitMany (adj : String → List String) (fuel : Nat)
    (worklist : List String) (stack : List String) (st : DfsState) :
    Option DfsState :=
  match worklist with
  | [] => some st
  | node :: rest =>
    let r1 : Option DfsState :=
      if node ∈ stack then none
      else if node ∈ st.visited then some st
      else
        match fuel with
        | 0 => none
        | fuel2 + 1 =>
          match visitMany adj fuel2 (adj node).reverse (node :: stack)
              { st with visited := node :: st.visited } with
          | none => none
          | some stc => some { stc with sorted := node :: stc.sorted }
    match r1 with
    | none => none
    | some st1 => visitMany adj fuel rest stack st1
termination_by (fuel, worklist.length)
decreasing_by
  · exact Prod.Lex.left _ _ (Nat.lt_succ_self fuel2)
  · exact Prod.Lex.right fuel (Nat.lt_succ_self rest.length)

/-- toposort.array(nodes, edges): rejects edges with unknown endpoints,
then runs the DFS from the last node to the first; the resulting order
has, for every edge (a, b), a before b. -/
def toposortArray (nodes : List String)
    (edges : List (String × String)) : Option (List String) :=
  if edges.all (fun e => nodes.contains e.1 && nodes.contains e.2) then
    (visitMany (adjOf edges) (nodes.length + 1) nodes.reverse [] ⟨[], []⟩).map
      DfsState.sorted
  else none

/-- data.ts Schema.sortedModels: the node list (the name of every model,
in map order). -/
def Schema.nodeNames (s : Schema) : List String :=
  s.models.map (fun p => p.2.name)

/-- data.ts Schema.sortedModels lines 174-186: the relation edge list -
for every model and every column with a relation whose type names another
model of the schema, an edge (model, child). -/
def Schema.relationEdges (s : Schema) : List (String × String) :=
  s.models.flatMap (fun p =>
    p.2.columns.filterMap (fun column =>
      if column.relation.isSome then
        (s.getModel column.ty.name).map (fun child => (p.2.name, child.name))
      else none))

/-- data.ts Schema.sortedModels: run toposort.array on the model names
and relation edges, map the names back to models, and reverse. -/
def Schema.sortedModels (s : Schema) : Option (List Model) :=
  (toposortArray s.nodeNames s.relationEdges).map
    (fun names => (names.filterMap s.getModel).reverse)

/-- A nonempty path along the adjacency function. -/
inductive AdjPath (adj : String → List String) : String → String → Prop
  | single {a b : String} : b ∈ adj a → AdjPath adj a b
  | cons {a b c : String} : b ∈ adj a → AdjPath adj b c → AdjPath adj a c

/-- Acyclicity of the relation graph of a schema: no nonempty path from a
model name back to itself. -/
def Schema.AcyclicRelations (s : Schema) : Prop :=
  ∀ n : String, ¬ AdjPath (adjOf s.relationEdges) n n

/-- A list is topologically sorted for adj when every node's neighbours
occur strictly later in the list. -/
inductive TopoSorted (adj : String → List String) : List String → Prop
  | nil : TopoSorted adj []
  | cons {x : String} {l : List String} :
      (∀ c ∈ adj x, c ∈ l) → TopoSorted adj l → TopoSorted adj (x :: l)

/-! ## Concrete scenarios -/

/-- Number of node names not yet marked visited (used to bound the DFS
fuel). -/
def unvisitedCount (nodes visited : List String) : Nat :=
  (nodes.filter (fun x => decide (¬ x ∈ visited))).length

/-- A model with a single primary-key column and no unique constraint. -/
def c7model : Model :=
  { name := "M"
    columns := [{ name := "id", ty := ⟨"String", false, false⟩,
                  relation := none, unique := false, primary_key := true }]
    unique := none }

/-- The schema holding only c7model. -/
def c7schema : Schema := ⟨[("M", c7model)]⟩

/-- A source row for c7model. -/
def c7row : RowData := ⟨"p", fun _ => "v"⟩

/-- Ten rows streamed from a single source. -/
def c7rows : List (Except String (RowData × ProbeResult)) :=
  List.replicate 10 (.ok (c7row, .empty))

/-- The batch-boundary scenario of the spec: one model, ten source rows,
threshold 3, a single (hence primary) source. -/
def c7run : RunState :=
  mergeModelRun c7schema c7model (fun _ => "u") [(true, c7rows)] 3

/-- A row stream whose first element is a driver error. -/
def c8rows : List (Except String (RowData × ProbeResult)) :=
  [.error "read failure", .ok (c7row, .empty)]

/-- Merging c7model from a single source whose stream delivers a driver
error and then one good row. -/
def c8run : RunState :=
  mergeModelRun c7schema c7model (fun _ => "u") [(true, c8rows)] 1000

/-- The same merge with the error row absent. -/
def c8runClean : RunState :=
  mergeModelRun c7schema c7model (fun _ => "u")
    [(true, [.ok (c7row, .empty)])] 1000

/-- The Owner model of the repository test schema
(src/js/src/merge_test/schema.ts). -/
def ownerModel : Model :=
  { name := "Owner"
    columns :=
      [{ name := "id", ty := ⟨"String", false, false⟩,
         relation := none, unique := false, primary_key := true },
       { name := "name", ty := ⟨"String", false, false⟩,
         relation := none, unique := false, primary_key := false }]
    unique := some ⟨["name"]⟩ }

/-- The TodoList model of the repository test schema: ownerId is the
foreign-key column, owner carries the Relation to Owner. -/
def todoListModel : Model :=
  { name := "TodoList"
    columns :=
      [{ name := "id", ty := ⟨"String", false, false⟩,
         relation := none, unique := false, primary_key := true },
       { name := "name", ty := ⟨"String", false, false⟩,
         relation := none, unique := false, primary_key := false },
       { name := "ownerId", ty := ⟨"String", false, false⟩,
         relation := none, unique := false, primary_key := false },
       { name := "owner", ty := ⟨"Owner", false, false⟩,
         relation := some ⟨["ownerId"], ["id"]⟩, unique := false,
         primary_key := false }]
    unique := some ⟨["name", "ownerId"]⟩ }

/-- The two-model test schema (Owner before TodoList in map order). -/
def testSchema : Schema :=
  ⟨[("Owner", ownerModel), ("TodoList", todoListModel)]⟩

/-! ## Theorems -/

/-- Invariant of the InsertManager: the progress count never exceeds the
number of buffered statements (every counted insert also buffers a
statement, and flushing zeroes both). -/
theorem InsertManager.reachable_count_le (im : InsertManager)
    (h : im.Reachable) : im.count ≤ im.statements.length := by
  induction h with
  | init t => simp
  | insert im stmt _ ih =>
      unfold InsertManager.insert InsertManager.maybeFlush
      dsimp only
      split
      · simp [InsertManager.flush]
      · simpa using Nat.succ_le_succ ih
  | insertSupporting im stmt _ ih =>
      unfold InsertManager.insertSupporting InsertManager.maybeFlush
      dsimp only
      split
      · simp [InsertManager.flush]
      · simp
        exact le_trans ih (by simp)
  | flush im _ ih => simp [InsertManager.flush]

/-- C10: if the post-merge foreign-key check query itself fails with a
driver error, Model.verifyIntegrity returns Ok (it only inspects the
answer when check.isOk()), and the orchestrator - which prints a warning
exactly for an Err outcome - prints nothing.  A failed check is therefore
indistinguishable from a clean table (the outcome coincides with that of
a zero-violation answer). -/
theorem claim_C10 (e : String) :
    verifyIntegrity (.error e) = .ok ∧
    warningPrinted (verifyIntegrity (.error e)) = false ∧
    verifyIntegrity (.error e) = verifyIntegrity (.ok (some 0)) :=
  ⟨rfl, rfl, rfl⟩

/-- C9: InsertManager.flush splices the buffer out and zeroes the count
before awaiting the batch execution; the post-state is therefore empty
with a zero count for every driver behaviour, including one that fails
with an error: the buffered statements are discarded, not retained. -/
theorem claim_C9 (im : InsertManager)
    (exec : List SqlStmt → Except String Unit) :
    (im.flushWith exec).2.statements = [] ∧
    (im.flushWith exec).2.count = 0 ∧
    (∀ e : String, exec im.statements = .error e →
      (im.flushWith exec).1 = .error e ∧
      (im.flushWith exec).2.statements = [] ∧
      (im.flushWith exec).2.count = 0) := by
  refine ⟨rfl, rfl, fun e h => ⟨?_, rfl, rfl⟩⟩
  simp [InsertManager.flushWith, InsertManager.flush, h]

/-- Witness for C9 at a concrete manager and a failing driver. -/
theorem claim_C9_witness :
    ((InsertManager.mk [.idMapInsert "M_id_map" "a" "b"] 1 10).flushWith
        (fun _ => .error "disk full")).1 = .error "disk full" ∧
    ((InsertManager.mk [.idMapInsert "M_id_map" "a" "b"] 1 10).flushWith
        (fun _ => .error "disk full")).2.statements = [] ∧
    ((InsertManager.mk [.idMapInsert "M_id_map" "a" "b"] 1 10).flushWith
        (fun _ => .error "disk full")).2.count = 0 :=
  (claim_C9 (InsertManager.mk [.idMapInsert "M_id_map" "a" "b"] 1 10)
    (fun _ => .error "disk full")).2.2 "disk full" rfl

/-- C6: the insert batcher - insert() appends the statement and counts
it, insertSupporting() appends without counting, either flushes exactly
when the pending statement count (regular plus supporting) reaches the
threshold and then returns the count accumulated since the last flush (0
otherwise), flush() returns the accumulated count and clears both buffer
and count, and flushing an empty reachable buffer returns 0. -/
theorem claim_C6 (im : InsertManager) (stmt : SqlStmt)
    (h : im.Reachable) :
    (im.insert stmt =
      if (im.statements ++ [stmt]).length ≥ im.threshold then
        (im.count + 1, some (im.statements ++ [stmt]),
          ⟨[], 0, im.threshold⟩)
      else
        (0, none, ⟨im.statements ++ [stmt], im.count + 1, im.threshold⟩)) ∧
    (im.insertSupporting stmt =
      if (im.statements ++ [stmt]).length ≥ im.threshold then
        (im.count, some (im.statements ++ [stmt]), ⟨[], 0, im.threshold⟩)
      else
        (0, none, ⟨im.statements ++ [stmt], im.count, im.threshold⟩)) ∧
    (im.flush = (im.count, im.statements, ⟨[], 0, im.threshold⟩)) ∧
    (im.statements = [] → im.flush.1 = 0) := by
  refine ⟨?_, ?_, rfl, fun he => ?_⟩
  · unfold InsertManager.insert InsertManager.maybeFlush InsertManager.flush
    dsimp only
  · unfold InsertManager.insertSupporting InsertManager.maybeFlush
      InsertManager.flush
    dsimp only
  · have := im.reachable_count_le h
    rw [he] at this
    simpa [InsertManager.flush] using Nat.le_zero.mp this

/-- Witness for C6 at the freshly constructed manager. -/
theorem claim_C6_witness :
    (InsertManager.mk [] 0 2).Reachable ∧
    (InsertManager.mk [] 0 2).flush.1 = 0 :=
  ⟨InsertManager.Reachable.init 2,
    (claim_C6 (InsertManager.mk [] 0 2) (.idMapInsert "T" "a" "b")
      (InsertManager.Reachable.init 2)).2.2.2 rfl⟩

/-- C1: for every source row the per-row callback processes, exactly one
row is inserted into the model's identity-map table, with old_id the
row's raw primary key and new_id the key actually stored in the
destination: the existing row's key when the dedup probe matched, the
freshly chosen key (old key on the primary, minted UUID on a secondary)
otherwise - and in the unmatched case the model insert stores exactly
that same key.  Holds on both branches of the callback. -/
theorem claim_C1 (schema : Schema) (model : Model) (isPrimary : Bool)
    (probe : ProbeResult) (mint : String) (row : RowData) :
    idMapEntriesOf (processRow schema model isPrimary probe mint row) =
      [(model.mapTableName, row.unquotedPk,
        (matchedPk model isPrimary probe).getD
          (if isPrimary then row.unquotedPk else mint))] ∧
    modelInsertsOf (processRow schema model isPrimary probe mint row) =
      (if (matchedPk model isPrimary probe).isSome then []
       else
        [(model.name,
          (matchedPk model isPrimary probe).getD
            (if isPrimary then row.unquotedPk else mint))]) := by
  cases hm : matchedPk model isPrimary probe <;>
    cases hpb : (!isPrimary && model.unique.isSome) <;>
      simp [processRow, idMapEntriesOf, modelInsertsOf, hm, hpb]

/-- C4: for every row that reaches the insert step (no existing row
matched), the primary key stored in the destination is the old primary
key for a primary-source row and the minted UUID for a secondary-source
row; the map entry records that same key as new_id, so on the primary
new_id = old_id, and on a secondary the entry's new_id differs from its
old_id whenever the minted UUID differs from the old key. -/
theorem claim_C4 (schema : Schema) (model : Model) (isPrimary : Bool)
    (probe : ProbeResult) (mint : String) (row : RowData)
    (h : matchedPk model isPrimary probe = none) :
    modelInsertsOf (processRow schema model isPrimary probe mint row) =
      [(model.name, if isPrimary then row.unquotedPk else mint)] ∧
    idMapEntriesOf (processRow schema model isPrimary probe mint row) =
      [(model.mapTableName, row.unquotedPk,
        if isPrimary then row.unquotedPk else mint)] ∧
    (isPrimary = true →
      ∀ e ∈ idMapEntriesOf (processRow schema model isPrimary probe mint row),
        e.2.2 = e.2.1) ∧
    (isPrimary = false → mint ≠ row.unquotedPk →
      ∀ e ∈ idMapEntriesOf (processRow schema model isPrimary probe mint row),
        e.2.2 ≠ e.2.1) := by
  cases hpb : (!isPrimary && model.unique.isSome) <;>
    simp [processRow, idMapEntriesOf, modelInsertsOf, h, hpb] <;>
      cases isPrimary <;> simp_all

/-- Witness for C4: a primary-source row (map entry keeps the old key)
and a secondary-source row (map entry gets the mint, which differs from
the old key here). -/
theorem claim_C4_witness :
    matchedPk c7model true ProbeResult.empty = none ∧
    matchedPk c7model false ProbeResult.empty = none ∧
    modelInsertsOf (processRow c7schema c7model true ProbeResult.empty "u" c7row) =
      [("M", "p")] ∧
    idMapEntriesOf (processRow c7schema c7model false ProbeResult.empty "u" c7row) =
      [("M_id_map", "p", "u")] ∧
    (∀ e ∈ idMapEntriesOf (processRow c7schema c7model true ProbeResult.empty "u" c7row),
      e.2.2 = e.2.1) ∧
    (∀ e ∈ idMapEntriesOf (processRow c7schema c7model false ProbeResult.empty "u" c7row),
      e.2.2 ≠ e.2.1) := by
  have h1 := claim_C4 c7schema c7model true ProbeResult.empty "u" c7row rfl
  have h2 := claim_C4 c7schema c7model false ProbeResult.empty "u" c7row rfl
  exact ⟨rfl, rfl, h1.1,
    by simpa [c7model, Model.mapTableName, c7row] using h2.2.1,
    h1.2.2.1 rfl,
    h2.2.2.2 rfl (by simp [c7row])⟩

/-- C5: the existence probe runs for a row exactly when the source is a
secondary and the model has a unique constraint (checkSqlTemplate is Some
exactly when model.unique is); when it runs and finds a match, the model
insert is skipped and the only statement emitted is the identity-map
entry mapping the old key to the matched key, issued through the
progress-counting insert() operation. -/
theorem claim_C5 (schema : Schema) (model : Model) (isPrimary : Bool)
    (probe : ProbeResult) (mint : String) (row : RowData) :
    probesOf (processRow schema model isPrimary probe mint row) =
      (if !isPrimary && model.unique.isSome then [probeValues model row]
       else []) ∧
    (∀ pk : String, matchedPk model isPrimary probe = some pk →
      emissionsOf (processRow schema model isPrimary probe mint row) =
        [.counting (.idMapInsert model.mapTableName row.unquotedPk pk)]) := by
  constructor
  · cases hm : matchedPk model isPrimary probe <;>
      cases hpb : (!isPrimary && model.unique.isSome) <;>
        simp [processRow, probesOf, hm, hpb]
  · intro pk hm
    have hpb : (!isPrimary && model.unique.isSome) = true := by
      by_contra hc
      simp only [Bool.not_eq_true] at hc
      simp [matchedPk, hc] at hm
    simp [processRow, emissionsOf, hm, hpb]

/-- Witness for C5: a secondary-source row of a model with a unique
constraint whose probe finds an existing row. -/
theorem claim_C5_witness :
    matchedPk ownerModel false (ProbeResult.found "w") = some "w" ∧
    probesOf (processRow testSchema ownerModel false (ProbeResult.found "w")
        "u" c7row) =
      [probeValues ownerModel c7row] ∧
    emissionsOf (processRow testSchema ownerModel false (ProbeResult.found "w")
        "u" c7row) =
      [.counting (.idMapInsert ownerModel.mapTableName c7row.unquotedPk "w")] := by
  have h := claim_C5 testSchema ownerModel false (ProbeResult.found "w") "u" c7row
  refine ⟨rfl, ?_, h.2 "w" rfl⟩
  simpa [ownerModel] using h.1

/-- C7 counterexample: in the batch-boundary scenario (one model, ten
source rows, threshold 3) the number of batch commits is not 4 = the
ceiling of 10/3 - neither counting every flush execution (8) nor only
the non-empty ones (7) - because every row contributes two buffered
statements (the model insert plus the supporting id-map insert), so the
threshold is reached every three statements, not every three rows. -/
theorem claim_C7_counterexample :
    c7run.batches.length ≠ 4 ∧
    (c7run.batches.filter (fun b => !b.isEmpty)).length ≠ 4 := by
  decide

/-- C7 amended: with threshold 3 and ten rows in one model, the batcher
performs six automatic commits of three statements each, one end-of-source
commit of the two remaining statements, and one final empty flush; the
progress returned by the successive flushes is 2,1,2,1,2,1,1,0, and the
final accumulated progress equals 10. -/
theorem claim_C7_amended :
    c7run.batches.map List.length = [3, 3, 3, 3, 3, 3, 2, 0] ∧
    c7run.flushRets = [2, 1, 2, 1, 2, 1, 1, 0] ∧
    c7run.progress = 10 := by
  decide

/-- C8 counterexample: a driver error delivered while streaming the
per-model SELECT does not abort the merge - the run with an error row in
the stream finishes and is indistinguishable from the run in which the
failed row simply does not exist: one row of progress, two statements
executed, identical final state.  The failed row is silently omitted. -/
theorem claim_C8_counterexample :
    c8run = c8runClean ∧
    c8run.progress = 1 ∧
    c8run.batches.flatten.length = 2 := by
  decide

/-- C8 amended: a driver error on a streamed row of the per-model SELECT
is silently skipped - the per-row callback returns at once, emitting no
statement, executing no probe, consuming no UUID and reporting no
progress, and the merge continues with the next row; the failed row is
omitted from the destination without aborting the merge. -/
theorem claim_C8_amended (schema : Schema) (model : Model)
    (isPrimary : Bool) (mint : Nat → String) (st : RunState) (e : String) :
    runRow schema model isPrimary mint st (.error e) = st :=
  rfl

/-- The primary-selection loop accumulates the row-count total. -/
theorem primaryLoop_total (l : List Nat) :
    ∀ (i a b t : Nat), (primaryLoop l i (a, b, t)).2.2 = t + l.sum := by
  induction l with
  | nil => intro i a b t; simp [primaryLoop]
  | cons c rest ih =>
      intro i a b t
      by_cases h : c > b <;> simp [primaryLoop, h, ih] <;> omega

/-- The running primary count never decreases. -/
theorem primaryLoop_mono (l : List Nat) :
    ∀ (i a b t : Nat), b ≤ (primaryLoop l i (a, b, t)).2.1 := by
  induction l with
  | nil => intro i a b t; simp [primaryLoop]
  | cons c rest ih =>
      intro i a b t
      by_cases h : c > b
      · simp only [primaryLoop, if_pos h]
        exact le_trans (le_of_lt h) (ih (i + 1) i c (t + c))
      · simp only [primaryLoop, if_neg h]
        exact ih (i + 1) a b (t + c)

/-- Every processed count is bounded by the final primary count. -/
theorem primaryLoop_le (l : List Nat) :
    ∀ (i a b t k : Nat), k < l.length →
      l.getD k 0 ≤ (primaryLoop l i (a, b, t)).2.1 := by
  induction l with
  | nil => intro i a b t k hk; simp at hk
  | cons c rest ih =>
      intro i a b t k hk
      cases k with
      | zero =>
          by_cases h : c > b
          · simp only [primaryLoop, if_pos h, List.getD_cons_zero]
            exact primaryLoop_mono rest (i + 1) i c (t + c)
          · simp only [primaryLoop, if_neg h, List.getD_cons_zero]
            exact le_trans (Nat.le_of_not_lt h)
              (primaryLoop_mono rest (i + 1) a b (t + c))
      | succ k =>
          have hk2 : k < rest.length := by simpa using hk
          by_cases h : c > b
          · simp only [primaryLoop, if_pos h, List.getD_cons_succ]
            exact ih (i + 1) i c (t + c) k hk2
          · simp only [primaryLoop, if_neg h, List.getD_cons_succ]
            exact ih (i + 1) a b (t + c) k hk2

/-- Characterisation of the selected primary: either the accumulator was
never beaten, or the result is the first index whose count strictly
exceeds every earlier count and the accumulator. -/
theorem primaryLoop_arg (l : List Nat) :
    ∀ (i a b t : Nat),
      ((primaryLoop l i (a, b, t)).1 = a ∧
        (primaryLoop l i (a, b, t)).2.1 = b) ∨
      (∃ k, k < l.length ∧ (primaryLoop l i (a, b, t)).1 = i + k ∧
        l.getD k 0 = (primaryLoop l i (a, b, t)).2.1 ∧
        b < (primaryLoop l i (a, b, t)).2.1 ∧
        ∀ j, j < k → l.getD j 0 < (primaryLoop l i (a, b, t)).2.1) := by
  induction l with
  | nil => intro i a b t; left; simp [primaryLoop]
  | cons c rest ih =>
      intro i a b t
      by_cases h : c > b
      · simp only [primaryLoop, if_pos h]
        rcases ih (i + 1) i c (t + c) with ⟨h1, h2⟩ | ⟨k, hk, h1, h2, h3, h4⟩
        · right
          refine ⟨0, by simp, by omega, by simp [h2], by omega, ?_⟩
          intro j hj; omega
        · right
          refine ⟨k + 1, by simpa using hk, by omega,
            by simpa using h2, lt_trans h h3, ?_⟩
          intro j hj
          cases j with
          | zero => simpa using h3
          | succ j =>
              simpa using h4 j (by omega)
      · simp only [primaryLoop, if_neg h]
        rcases ih (i + 1) a b (t + c) with hl | ⟨k, hk, h1, h2, h3, h4⟩
        · left; exact hl
        · right
          refine ⟨k + 1, by simpa using hk, by omega,
            by simpa using h2, h3, ?_⟩
          intro j hj
          cases j with
          | zero =>
              simpa using lt_of_le_of_lt (Nat.le_of_not_lt h) h3
          | succ j =>
              simpa using h4 j (by omega)

/-- C3: for a non-empty list of per-source counts, the merge driver
designates as primary the source with the largest count, ties broken in
favour of the earlier source (all counts equal gives source 0), sums the
counts into the progress total, and iterates sources as [primary, then
the secondaries in original input order]. -/
theorem claim_C3 (counts : List Nat) (h : counts ≠ []) :
    (selectPrimary counts).1 < counts.length ∧
    counts.getD (selectPrimary counts).1 0 = (selectPrimary counts).2.1 ∧
    (∀ j, j < counts.length →
      counts.getD j 0 ≤ (selectPrimary counts).2.1) ∧
    (∀ j, j < (selectPrimary counts).1 →
      counts.getD j 0 < (selectPrimary counts).2.1) ∧
    (selectPrimary counts).2.2 = counts.sum ∧
    (sortedConnectionIdxs counts.length (selectPrimary counts).1).head? =
      some (selectPrimary counts).1 ∧
    List.Sorted (· < ·)
      (sortedConnectionIdxs counts.length (selectPrimary counts).1).tail ∧
    (∀ j, j ∈ sortedConnectionIdxs counts.length (selectPrimary counts).1 ↔
      j < counts.length) ∧
    (sortedConnectionIdxs counts.length (selectPrimary counts).1).Nodup := by
  have hlen : 0 < counts.length := List.length_pos.mpr h
  have hle : ∀ j, j < counts.length →
      counts.getD j 0 ≤ (selectPrimary counts).2.1 :=
    fun j hj => primaryLoop_le counts 0 0 0 0 j hj
  have hargs := primaryLoop_arg counts 0 0 0 0
  rw [show primaryLoop counts 0 (0, 0, 0) = selectPrimary counts from rfl]
    at hargs
  have hfst : (selectPrimary counts).1 < counts.length ∧
      counts.getD (selectPrimary counts).1 0 = (selectPrimary counts).2.1 ∧
      (∀ j, j < (selectPrimary counts).1 →
        counts.getD j 0 < (selectPrimary counts).2.1) := by
    rcases hargs with ⟨h1, h2⟩ | ⟨k, hk, h1, h2, h3, h4⟩
    · refine ⟨by rw [h1]; exact hlen, ?_, ?_⟩
      · have hb := hle 0 hlen
        rw [h1, h2]
        rw [h2] at hb
        omega
      · intro j hj
        rw [h1] at hj
        omega
    · refine ⟨?_, ?_, ?_⟩
      · rw [h1]; omega
      · rw [h1, Nat.zero_add]; exact h2
      · intro j hj
        rw [h1] at hj
        exact h4 j (by omega)
  refine ⟨hfst.1, hfst.2.1, hle, hfst.2.2,
    by simpa [selectPrimary] using primaryLoop_total counts 0 0 0 0,
    rfl, ?_, ?_, ?_⟩
  · exact (List.pairwise_lt_range _).filter _
  · intro j
    simp only [sortedConnectionIdxs, List.mem_cons, List.mem_filter,
      List.mem_range, bne_iff_ne]
    constructor
    · rintro (rfl | ⟨hj, _⟩)
      · exact hfst.1
      · exact hj
    · intro hj
      by_cases hje : j = (selectPrimary counts).1
      · exact Or.inl hje
      · exact Or.inr ⟨hj, hje⟩
  · refine List.Nodup.cons ?_ ((List.nodup_range _).filter _)
    intro hmem
    have := (List.mem_filter.mp hmem).2
    simp at this

/-- Witness for C3: counts [1, 2, 2] - source 1 is primary (first of the
two tied maxima), the total is 5. -/
theorem claim_C3_witness :
    ([1, 2, 2] : List Nat) ≠ [] ∧
    (selectPrimary [1, 2, 2]).1 < 3 ∧
    (selectPrimary [1, 2, 2]).2.2 = 5 := by
  have hc := claim_C3 [1, 2, 2] (by decide)
  exact ⟨by decide, by simpa using hc.1, by simpa using hc.2.2.2.2.1⟩

/-! ### Lemmas about the DFS of the topological scheduler -/

/-- Paths extend on the right by one edge. -/
theorem AdjPath.snoc {adj : String → List String} {a b c : String}
    (p : AdjPath adj a b) (h : c ∈ adj b) : AdjPath adj a c := by
  induction p with
  | single hab => exact .cons hab (.single h)
  | cons hab _ ih => exact .cons hab (ih h)

/-- Membership in the adjacency list is edge membership. -/
theorem mem_adjOf {edges : List (String × String)} {a c : String} :
    c ∈ adjOf edges a ↔ (a, c) ∈ edges := by
  constructor
  · intro h
    obtain ⟨e, he, hec⟩ := List.mem_map.mp h
    obtain ⟨hedge, hpred⟩ := List.mem_filter.mp he
    obtain ⟨x, y⟩ := e
    have hx : x = a := by simpa using hpred
    have hy : y = c := hec
    rw [hx, hy] at hedge
    exact hedge
  · intro h
    refine List.mem_map.mpr ⟨(a, c), List.mem_filter.mpr ⟨h, by simp⟩, rfl⟩

/-- The DFS stack, read with the current node in front, is a chain of
edges pointing from each stack element to the one pushed on top of it.
If the node is already on the stack, the graph has a cycle. -/
theorem chain_stack_path {adj : String → List String} :
    ∀ {l : List String} {x n : String},
      List.Chain' (fun u v => u ∈ adj v) (x :: l) → n ∈ l →
      AdjPath adj n x := by
  intro l
  induction l with
  | nil => intro x n _ hn; cases hn
  | cons y l2 ih =>
      intro x n hch hn
      have hxy : x ∈ adj y := List.chain'_cons.mp hch |>.1
      have hch2 : List.Chain' (fun u v => u ∈ adj v) (y :: l2) :=
        List.chain'_cons.mp hch |>.2
      rcases List.mem_cons.mp hn with rfl | hn2
      · exact .single hxy
      · exact (ih hch2 hn2).snoc hxy

/-- A rank function decreasing along every edge certifies acyclicity of
the relation graph. -/
theorem acyclic_of_rank (edges : List (String × String))
    (rank : String → Nat)
    (h : ∀ e ∈ edges, rank e.2 < rank e.1) :
    ∀ n, ¬ AdjPath (adjOf edges) n n := by
  have hstep : ∀ a b, AdjPath (adjOf edges) a b → rank b < rank a := by
    intro a b p
    induction p with
    | single hab => exact h _ (mem_adjOf.mp hab)
    | cons hab _ ih => exact lt_trans ih (h _ (mem_adjOf.mp hab))
  intro n hp
  exact lt_irrefl _ (hstep n n hp)

/-- Unfolding lemma: the DFS on an empty worklist. -/
theorem visitMany_nil (adj : String → List String) (fuel : Nat)
    (stack : List String) (st : DfsState) :
    visitMany adj fuel [] stack st = some st := by
  rw [visitMany.eq_def]

/-- Unfolding lemma: one DFS step. -/
theorem visitMany_cons (adj : String → List String) (fuel : Nat)
    (node : String) (rest stack : List String) (st : DfsState) :
    visitMany adj fuel (node :: rest) stack st =
      match
        (if node ∈ stack then none
         else if node ∈ st.visited then some st
         else
           match fuel with
           | 0 => none
           | fuel2 + 1 =>
             match visitMany adj fuel2 (adj node).reverse (node :: stack)
                 { st with visited := node :: st.visited } with
             | none => none
             | some stc => some { stc with sorted := node :: stc.sorted })
      with
      | none => none
      | some st1 => visitMany adj fuel rest stack st1 := by
  rw [visitMany.eq_def]

/-- A successful DFS only grows the visited set. -/
theorem visitMany_visited_mono (adj : String → List String) :
    ∀ (fuel : Nat) (worklist stack : List String) (st st2 : DfsState),
      visitMany adj fuel worklist stack st = some st2 →
      ∀ n ∈ st.visited, n ∈ st2.visited := by
  intro fuel
  induction fuel with
  | zero =>
      intro worklist
      induction worklist with
      | nil =>
          intro stack st st2 h
          rw [visitMany_nil] at h
          cases h
          exact fun n hn => hn
      | cons node rest ihw =>
          intro stack st st2 h
          rw [visitMany_cons] at h
          by_cases hstack : node ∈ stack
          · simp [hstack] at h
          · by_cases hvis : node ∈ st.visited
            · simp only [if_neg hstack, if_pos hvis] at h
              exact ihw stack st st2 h
            · simp [hstack, hvis] at h
  | succ f ihf =>
      intro worklist
      induction worklist with
      | nil =>
          intro stack st st2 h
          rw [visitMany_nil] at h
          cases h
          exact fun n hn => hn
      | cons node rest ihw =>
          intro stack st st2 h
          rw [visitMany_cons] at h
          by_cases hstack : node ∈ stack
          · simp [hstack] at h
          · by_cases hvis : node ∈ st.visited
            · simp only [if_neg hstack, if_pos hvis] at h
              exact ihw stack st st2 h
            · simp only [if_neg hstack, if_neg hvis] at h
              cases hc : visitMany adj f (adj node).reverse (node :: stack)
                  { st with visited := node :: st.visited } with
              | none => simp [hc] at h
              | some stc =>
                  simp only [hc] at h
                  intro n hn
                  have h2 := ihf (adj node).reverse (node :: stack) _ stc hc n
                    (List.mem_cons_of_mem _ hn)
                  exact ihw stack _ st2 h n h2

/-- Main invariants of a successful DFS run: the visited set grows, the
finished list grows by prefixing, stays topologically sorted, keeps every
visited node either finished or on the stack, finished nodes are visited,
visited nodes lie among the known nodes, and every worklist node ends up
finished. -/
theorem visitMany_props (adj : String → List String) (nodes : List String)
    (hadj : ∀ a c, c ∈ adj a → c ∈ nodes) :
    ∀ (fuel : Nat) (worklist : List String),
      ∀ (stack : List String) (st st2 : DfsState),
        visitMany adj fuel worklist stack st = some st2 →
        (∀ n ∈ worklist, n ∈ nodes) →
        TopoSorted adj st.sorted →
        (∀ n ∈ st.visited, n ∈ st.sorted ∨ n ∈ stack) →
        (∀ n ∈ st.sorted, n ∈ st.visited) →
        (∀ n ∈ st.visited, n ∈ nodes) →
        ((∀ n ∈ st.visited, n ∈ st2.visited) ∧
         (∃ pre : List String, st2.sorted = pre ++ st.sorted) ∧
         TopoSorted adj st2.sorted ∧
         (∀ n ∈ st2.visited, n ∈ st2.sorted ∨ n ∈ stack) ∧
         (∀ n ∈ st2.sorted, n ∈ st2.visited) ∧
         (∀ n ∈ st2.visited, n ∈ nodes) ∧
         (∀ n ∈ worklist, n ∈ st2.sorted)) := by
  intro fuel
  induction fuel with
  | zero =>
      intro worklist
      induction worklist with
      | nil =>
          intro stack st st2 h _ hts hinv hsv hvn
          rw [visitMany_nil] at h
          cases h
          exact ⟨fun n hn => hn, ⟨[], rfl⟩, hts, hinv, hsv, hvn,
            fun n hn => absurd hn (List.not_mem_nil n)⟩
      | cons node rest ihw =>
          intro stack st st2 h hwl hts hinv hsv hvn
          rw [visitMany_cons] at h
          by_cases hstack : node ∈ stack
          · simp [hstack] at h
          · by_cases hvis : node ∈ st.visited
            · simp only [if_neg hstack, if_pos hvis] at h
              obtain ⟨m, ⟨pre, hpre⟩, topo, inv, sv, vn, wl⟩ :=
                ihw stack st st2 h (fun n hn => hwl n (List.mem_cons_of_mem _ hn))
                  hts hinv hsv hvn
              refine ⟨m, ⟨pre, hpre⟩, topo, inv, sv, vn, ?_⟩
              intro n hn
              rcases List.mem_cons.mp hn with rfl | hn2
              · rcases hinv n hvis with hs | hs
                · rw [hpre]; exact List.mem_append_right _ hs
                · exact absurd hs hstack
              · exact wl n hn2
            · simp [hstack, hvis] at h
  | succ f ihf =>
      intro worklist
      induction worklist with
      | nil =>
          intro stack st st2 h _ hts hinv hsv hvn
          rw [visitMany_nil] at h
          cases h
          exact ⟨fun n hn => hn, ⟨[], rfl⟩, hts, hinv, hsv, hvn,
            fun n hn => absurd hn (List.not_mem_nil n)⟩
      | cons node rest ihw =>
          intro stack st st2 h hwl hts hinv hsv hvn
          rw [visitMany_cons] at h
          by_cases hstack : node ∈ stack
          · simp [hstack] at h
          · by_cases hvis : node ∈ st.visited
            · simp only [if_neg hstack, if_pos hvis] at h
              obtain ⟨m, ⟨pre, hpre⟩, topo, inv, sv, vn, wl⟩ :=
                ihw stack st st2 h (fun n hn => hwl n (List.mem_cons_of_mem _ hn))
                  hts hinv hsv hvn
              refine ⟨m, ⟨pre, hpre⟩, topo, inv, sv, vn, ?_⟩
              intro n hn
              rcases List.mem_cons.mp hn with rfl | hn2
              · rcases hinv n hvis with hs | hs
                · rw [hpre]; exact List.mem_append_right _ hs
                · exact absurd hs hstack
              · exact wl n hn2
            · simp only [if_neg hstack, if_neg hvis] at h
              cases hc : visitMany adj f (adj node).reverse (node :: stack)
                  { st with visited := node :: st.visited } with
              | none => simp [hc] at h
              | some stc =>
                  simp only [hc] at h
                  -- invariants at the child call
                  have hnodemem : node ∈ nodes := hwl node (List.mem_cons_self _ _)
                  have cres :=
                    ihf (adj node).reverse (node :: stack)
                      { st with visited := node :: st.visited } stc hc
                      (fun n hn => hadj node n (List.mem_reverse.mp hn))
                      hts
                      (by
                        intro n hn
                        rcases List.mem_cons.mp hn with rfl | hn2
                        · exact Or.inr (List.mem_cons_self _ _)
                        · exact (hinv n hn2).imp id (List.mem_cons_of_mem _))
                      (fun n hn => List.mem_cons_of_mem _ (hsv n hn))
                      (by
                        intro n hn
                        rcases List.mem_cons.mp hn with rfl | hn2
                        · exact hnodemem
                        · exact hvn n hn2)
                  obtain ⟨cm, ⟨cpre, hcpre⟩, ctopo, cinv, csv, cvn, cwl⟩ := cres
                  -- invariants at the sibling call, on the pushed state
                  have hnodevis : node ∈ stc.visited :=
                    cm node (List.mem_cons_self _ _)
                  have sres :=
                    ihw stack { stc with sorted := node :: stc.sorted } st2 h
                      (fun n hn => hwl n (List.mem_cons_of_mem _ hn))
                      (TopoSorted.cons
                        (fun c hcadj => cwl c (List.mem_reverse.mpr hcadj))
                        ctopo)
                      (by
                        intro n hn
                        rcases cinv n hn with hs | hs
                        · exact Or.inl (List.mem_cons_of_mem _ hs)
                        · rcases List.mem_cons.mp hs with rfl | hs2
                          · exact Or.inl (List.mem_cons_self _ _)
                          · exact Or.inr hs2)
                      (by
                        intro n hn
                        rcases List.mem_cons.mp hn with rfl | hn2
                        · exact hnodevis
                        · exact csv n hn2)
                      cvn
                  obtain ⟨sm, ⟨spre, hspre⟩, stopo, sinv, ssv, svn, swl⟩ := sres
                  refine ⟨?_, ⟨spre ++ node :: cpre, ?_⟩, stopo, sinv, ssv, svn,
                    ?_⟩
                  · intro n hn
                    exact sm n (cm n (List.mem_cons_of_mem _ hn))
                  · rw [hspre]
                    simp only [hcpre, List.append_assoc, List.cons_append]
                  · intro n hn
                    rcases List.mem_cons.mp hn with rfl | hn2
                    · rw [hspre]
                      exact List.mem_append_right _ (List.mem_cons_self _ _)
                    · exact swl n hn2

/-- Filter lengths are monotone in the predicate. -/
theorem length_filter_mono {α : Type} (l : List α) (p q : α → Bool)
    (h : ∀ x, p x = true → q x = true) :
    (l.filter p).length ≤ (l.filter q).length := by
  induction l with
  | nil => simp
  | cons a rest ih =>
      by_cases hp : p a = true
      · rw [List.filter_cons_of_pos hp, List.filter_cons_of_pos (h a hp)]
        simpa using ih
      · rw [List.filter_cons_of_neg (by simpa using hp)]
        by_cases hq : q a = true
        · rw [List.filter_cons_of_pos hq]
          exact le_trans ih (by simp)
        · rw [List.filter_cons_of_neg (by simpa using hq)]
          exact ih

/-- Growing the visited set shrinks the unvisited count. -/
theorem unvisitedCount_mono (nodes v1 v2 : List String)
    (h : ∀ x ∈ v1, x ∈ v2) :
    unvisitedCount nodes v2 ≤ unvisitedCount nodes v1 := by
  apply length_filter_mono
  intro x hx
  simp only [decide_eq_true_eq] at hx ⊢
  exact fun hm => hx (h x hm)

/-- Marking an unvisited node visited decreases the unvisited count by
exactly one. -/
theorem unvisitedCount_cons (nodes : List String) (node : String)
    (visited : List String) (hnd : nodes.Nodup) (hmem : node ∈ nodes)
    (hnv : node ∉ visited) :
    unvisitedCount nodes (node :: visited) + 1 =
      unvisitedCount nodes visited := by
  have hpred : ∀ x ∈ nodes,
      (decide (¬ x ∈ (node :: visited))) =
        ((fun x => x != node) x && decide (¬ x ∈ visited)) := by
    intro x _
    by_cases h1 : x = node <;> by_cases h2 : x ∈ visited <;> simp [h1, h2]
  have hmemq : node ∈ nodes.filter (fun x => decide (¬ x ∈ visited)) :=
    List.mem_filter.mpr ⟨hmem, by simpa using hnv⟩
  have hcalc : unvisitedCount nodes (node :: visited) =
      (nodes.filter (fun x => decide (¬ x ∈ visited))).length - 1 := by
    unfold unvisitedCount
    rw [List.filter_congr hpred]
    rw [show nodes.filter (fun x => (fun x => x != node) x &&
          decide (¬ x ∈ visited)) =
        (nodes.filter (fun x => decide (¬ x ∈ visited))).filter
          (fun x => x != node) from (List.filter_filter _ _).symm]
    rw [← List.Nodup.erase_eq_filter (hnd.filter _) node]
    exact List.length_erase_of_mem hmemq
  have hpos : 0 < (nodes.filter (fun x => decide (¬ x ∈ visited))).length :=
    List.length_pos.mpr (fun he => by rw [he] at hmemq; cases hmemq)
  unfold unvisitedCount at *
  omega

/-- With enough fuel, an acyclic graph lets the DFS succeed: the stack is
always an edge chain, so the cycle check never fires, and every descent
marks a fresh node visited, bounding the depth by the unvisited count. -/
theorem visitMany_some (adj : String → List String) (nodes : List String)
    (hacyc : ∀ n, ¬ AdjPath adj n n)
    (hadj : ∀ a c, c ∈ adj a → c ∈ nodes)
    (hnd : nodes.Nodup) :
    ∀ (fuel : Nat) (worklist stack : List String) (st : DfsState),
      (∀ n ∈ worklist, n ∈ nodes) →
      (∀ n ∈ worklist, List.Chain' (fun u v => u ∈ adj v) (n :: stack)) →
      unvisitedCount nodes st.visited + 1 ≤ fuel →
      ∃ st2, visitMany adj fuel worklist stack st = some st2 := by
  intro fuel
  induction fuel with
  | zero =>
      intro worklist stack st _ _ hf
      omega
  | succ f ihf =>
      intro worklist
      induction worklist with
      | nil =>
          intro stack st _ _ _
          exact ⟨st, visitMany_nil adj (f + 1) stack st⟩
      | cons node rest ihw =>
          intro stack st hwl hch hf
          have hstack : node ∉ stack := by
            intro hmem
            exact hacyc node
              (chain_stack_path (hch node (List.mem_cons_self _ _)) hmem)
          rw [visitMany_cons]
          by_cases hvis : node ∈ st.visited
          · simp only [if_neg hstack, if_pos hvis]
            exact ihw stack st
              (fun n hn => hwl n (List.mem_cons_of_mem _ hn))
              (fun n hn => hch n (List.mem_cons_of_mem _ hn)) hf
          · have hnodemem : node ∈ nodes := hwl node (List.mem_cons_self _ _)
            have hdrop := unvisitedCount_cons nodes node st.visited hnd
              hnodemem hvis
            obtain ⟨stc, hstc⟩ :=
              ihf (adj node).reverse (node :: stack)
                { st with visited := node :: st.visited }
                (fun c hc => hadj node c (List.mem_reverse.mp hc))
                (fun c hc => List.chain'_cons.mpr
                  ⟨List.mem_reverse.mp hc, hch node (List.mem_cons_self _ _)⟩)
                (by
                  simp only []
                  omega)
            have hmono := visitMany_visited_mono adj f _ _ _ _ hstc
            have hcount : unvisitedCount nodes stc.visited + 1 ≤ f + 1 := by
              have h1 : unvisitedCount nodes stc.visited ≤
                  unvisitedCount nodes (node :: st.visited) :=
                unvisitedCount_mono nodes _ _ (fun x hx => hmono x hx)
              omega
            obtain ⟨st2, hst2⟩ :=
              ihw stack { stc with sorted := node :: stc.sorted }
                (fun n hn => hwl n (List.mem_cons_of_mem _ hn))
                (fun n hn => hch n (List.mem_cons_of_mem _ hn)) hcount
            refine ⟨st2, ?_⟩
            simp only [if_neg hstack, if_neg hvis, hstc]
            exact hst2

/-- For an acyclic edge list over duplicate-free nodes, toposort.array
succeeds and returns a topologically sorted list containing every node. -/
theorem toposortArray_props (nodes : List String)
    (edges : List (String × String))
    (hacyc : ∀ n, ¬ AdjPath (adjOf edges) n n)
    (hnd : nodes.Nodup)
    (hedge : ∀ e ∈ edges, e.1 ∈ nodes ∧ e.2 ∈ nodes) :
    ∃ out, toposortArray nodes edges = some out ∧
      (∀ n ∈ nodes, n ∈ out) ∧
      TopoSorted (adjOf edges) out ∧
      (∀ n ∈ out, n ∈ nodes) := by
  have hadj : ∀ a c, c ∈ adjOf edges a → c ∈ nodes := by
    intro a c hc
    exact (hedge (a, c) (mem_adjOf.mp hc)).2
  have hguard :
      edges.all (fun e => nodes.contains e.1 && nodes.contains e.2) = true := by
    rw [List.all_eq_true]
    intro e he
    have h2 := hedge e he
    simp only [Bool.and_eq_true]
    exact ⟨List.elem_eq_true_of_mem h2.1, List.elem_eq_true_of_mem h2.2⟩
  obtain ⟨st2, hst2⟩ :=
    visitMany_some (adjOf edges) nodes hacyc hadj hnd (nodes.length + 1)
      nodes.reverse [] ⟨[], []⟩
      (fun n hn => List.mem_reverse.mp hn)
      (fun n _ => List.chain'_singleton n)
      (by unfold unvisitedCount; simp)
  obtain ⟨_, _, topo, _, sv, vn, wl⟩ :=
    visitMany_props (adjOf edges) nodes hadj (nodes.length + 1) nodes.reverse
      [] ⟨[], []⟩ st2 hst2
      (fun n hn => List.mem_reverse.mp hn)
      TopoSorted.nil
      (by intro n hn; cases hn)
      (by intro n hn; cases hn)
      (by intro n hn; cases hn)
  refine ⟨st2.sorted, ?_, ?_, topo, ?_⟩
  · unfold toposortArray
    rw [if_pos hguard, hst2]
    rfl
  · intro n hn
    exact wl n (List.mem_reverse.mpr hn)
  · intro n hn
    exact vn n (sv n hn)

/-- In a topologically sorted list, a node precedes each of its
neighbours. -/
theorem TopoSorted.sublist_pair {adj : String → List String}
    {l : List String} {a b : String}
    (ht : TopoSorted adj l) (ha : a ∈ l) (hb : b ∈ adj a) :
    List.Sublist [a, b] l := by
  induction ht with
  | nil => cases ha
  | cons hch ht2 ih =>
      rcases List.mem_cons.mp ha with rfl | ha2
      · exact List.Sublist.cons₂ _ (List.singleton_sublist.mpr (hch b hb))
      · exact List.Sublist.cons _ (ih ha2)

/-- A successful Map lookup returns a stored binding. -/
theorem getModel_mem {s : Schema} {n : String} {m : Model}
    (h : s.getModel n = some m) : ∃ k, (k, m) ∈ s.models := by
  unfold Schema.getModel at h
  cases hf : s.models.find? (fun p => p.1 == n) with
  | none => rw [hf] at h; cases h
  | some p =>
      rw [hf] at h
      cases h
      obtain ⟨k, m2⟩ := p
      exact ⟨k, List.mem_of_find?_eq_some hf⟩

/-- Under the Map well-formedness of getSchema (key = model name,
duplicate-free names), looking a stored model up by its name returns that
model. -/
theorem getModel_of_mem {s : Schema}
    (hnames : ∀ p ∈ s.models, p.1 = p.2.name)
    (hnd : s.nodeNames.Nodup) :
    ∀ p ∈ s.models, s.getModel p.2.name = some p.2 := by
  intro p hp
  unfold Schema.nodeNames at hnd
  have hex : (s.models.find? (fun q => q.1 == p.2.name)).isSome = true :=
    List.find?_isSome.mpr ⟨p, hp, by simp [hnames p hp]⟩
  unfold Schema.getModel
  cases hf : s.models.find? (fun q => q.1 == p.2.name) with
  | none => rw [hf] at hex; cases hex
  | some q =>
      have hq1 : q.1 = p.2.name := by
        have := List.find?_some hf
        simpa using this
      have hqm := List.mem_of_find?_eq_some hf
      have hqname : q.2.name = p.2.name := by
        rw [← hnames q hqm]; exact hq1
      have heq : q = p := List.inj_on_of_nodup_map hnd hqm hp hqname
      rw [heq]
      rfl

/-- Both endpoints of every relation edge are model names of the
schema. -/
theorem relationEdges_mem_nodes {s : Schema} :
    ∀ e ∈ s.relationEdges, e.1 ∈ s.nodeNames ∧ e.2 ∈ s.nodeNames := by
  intro e he
  unfold Schema.relationEdges at he
  obtain ⟨p, hp, he2⟩ := List.mem_flatMap.mp he
  obtain ⟨col, _, hsome⟩ := List.mem_filterMap.mp he2
  by_cases hrel : col.relation.isSome
  · rw [if_pos hrel] at hsome
    cases hg : s.getModel col.ty.name with
    | none => rw [hg] at hsome; cases hsome
    | some child =>
        rw [hg] at hsome
        cases hsome
        constructor
        · exact List.mem_map.mpr ⟨p, hp, rfl⟩
        · obtain ⟨k, hk⟩ := getModel_mem hg
          exact List.mem_map.mpr ⟨(k, child), hk, rfl⟩
  · rw [if_neg hrel] at hsome; cases hsome

/-- C2: for every schema with well-formed model map (keys are the model
names, names duplicate-free) whose relation graph is acyclic,
Schema.sortedModels succeeds and returns an ordering containing all the
schema's models in which, for every relation edge A to B (A has a column
with a Relation whose type names B), B appears strictly before A - so B
is merged before A in the sequential per-model loop of prismerge. -/
theorem claim_C2 (s : Schema)
    (hnames : ∀ p ∈ s.models, p.1 = p.2.name)
    (hnd : s.nodeNames.Nodup)
    (hacyc : s.AcyclicRelations) :
    ∃ out, s.sortedModels = some out ∧
      (∀ p ∈ s.models, p.2 ∈ out) ∧
      (∀ a b : String, (a, b) ∈ s.relationEdges →
        ∃ A B : Model, s.getModel a = some A ∧ s.getModel b = some B ∧
          List.Sublist [B, A] out) := by
  have hedge : ∀ e ∈ s.relationEdges,
      e.1 ∈ s.nodeNames ∧ e.2 ∈ s.nodeNames :=
    fun e he => relationEdges_mem_nodes e he
  obtain ⟨out0, hout0, hmemall, htopo, _⟩ :=
    toposortArray_props s.nodeNames s.relationEdges hacyc hnd hedge
  refine ⟨(out0.filterMap s.getModel).reverse, ?_, ?_, ?_⟩
  · unfold Schema.sortedModels
    rw [hout0]
    rfl
  · intro p hp
    have hn : p.2.name ∈ out0 := hmemall _ (List.mem_map.mpr ⟨p, hp, rfl⟩)
    exact List.mem_reverse.mpr
      (List.mem_filterMap.mpr ⟨p.2.name, hn, getModel_of_mem hnames hnd p hp⟩)
  · intro a b hab
    have ha1 : a ∈ s.nodeNames := (hedge (a, b) hab).1
    have hb1 : b ∈ s.nodeNames := (hedge (a, b) hab).2
    obtain ⟨pa, hpa, hpa2⟩ := List.mem_map.mp ha1
    obtain ⟨pb, hpb, hpb2⟩ := List.mem_map.mp hb1
    have hga : s.getModel a = some pa.2 :=
      hpa2 ▸ getModel_of_mem hnames hnd pa hpa
    have hgb : s.getModel b = some pb.2 :=
      hpb2 ▸ getModel_of_mem hnames hnd pb hpb
    refine ⟨pa.2, pb.2, hga, hgb, ?_⟩
    have hpair : List.Sublist [a, b] out0 :=
      htopo.sublist_pair (hmemall a ha1) (mem_adjOf.mpr hab)
    have hfm := List.Sublist.filterMap s.getModel hpair
    have hcomp : List.filterMap s.getModel [a, b] = [pa.2, pb.2] := by
      simp [List.filterMap_cons, hga, hgb]
    rw [hcomp] at hfm
    simpa using List.Sublist.reverse hfm

/-- Witness for C2 at the Owner/TodoList test schema: well-named
duplicate-free map, acyclic via the rank Owner = 0 < TodoList = 1, and
the ordering conclusion. -/
theorem claim_C2_witness :
    (∀ p ∈ testSchema.models, p.1 = p.2.name) ∧
    testSchema.nodeNames.Nodup ∧
    testSchema.AcyclicRelations ∧
    (∃ out, testSchema.sortedModels = some out ∧
      (∀ p ∈ testSchema.models, p.2 ∈ out) ∧
      (∀ a b : String, (a, b) ∈ testSchema.relationEdges →
        ∃ A B : Model, testSchema.getModel a = some A ∧
          testSchema.getModel b = some B ∧ List.Sublist [B, A] out)) := by
  have hacyc : testSchema.AcyclicRelations :=
    acyclic_of_rank testSchema.relationEdges
      (fun n => if n = "TodoList" then 1 else 0) (by decide)
  exact ⟨by decide, by decide, hacyc,
    claim_C2 testSchema (by decide) (by decide) hacyc⟩

end Prismerge
